import Mathlib

/-!
Verification of the frame-streaming pipeline of `bad-apple-rs` (`src/main.rs`).

The program spawns `thread_cnt` loader threads; thread `thread_id` owns the
frame indices `i` with `i % thread_cnt == thread_id` (the skip test at
main.rs:80), loads them in ascending order and sends the decoded frames over
its own bounded crossbeam channel (`channel::bounded(10)`, main.rs:251),
throttled by the guard `tx.len() < preload` (main.rs:75).  The graphics loop
(main.rs:279-304) pops from channel `cur_frame % img_thread_cnt` at a paced
tick and advances `cur_frame` only on a successful `try_recv`.

The definitions below are a shallow embedding of those pieces, translated
directly from the source; the theorems settle the specification claims.
-/

namespace BadApple

/-! ## Partition function (main.rs:80)

The loader thread keeps frame `cur_frame` exactly when
`(cur_frame % opts.thread_cnt) == opts.thread_id`; otherwise it skips it. -/

/-- Ownership test of a frame index by a lane, from the skip test
`(cur_frame % opts.thread_cnt) != opts.thread_id` at main.rs:80. -/
def ownsFrame (thread_cnt thread_id i : Nat) : Bool :=
  i % thread_cnt == thread_id

/-- The set of frame indices in `[0, total_frames)` owned by lane `w`. -/
def laneIndexSet (thread_cnt total_frames w : Nat) : Finset Nat :=
  (Finset.range total_frames).filter (fun i => ownsFrame thread_cnt w i)

/-! ## Filename mapping (main.rs:86)

`format!("{}/{:03}.{}", opts.frame_dir, cur_frame + 1, opts.frame_fmt)`:
the numeric field is `cur_frame + 1` zero-padded on the left to a minimum
width of three characters. -/

/-- Rust's `{:03}` format specifier on a natural number: the decimal digits,
left-padded with `'0'` up to a minimum width of three. -/
def zeroPad3 (n : Nat) : String :=
  let s := Nat.repr n
  if s.length < 3 then String.mk (List.replicate (3 - s.length) '0') ++ s else s

/-- Frame file path built by the loader thread at main.rs:86. -/
def imgFname (frame_dir : String) (cur_frame : Nat) (frame_fmt : String) : String :=
  frame_dir ++ "/" ++ zeroPad3 (cur_frame + 1) ++ "." ++ frame_fmt

/-! ## Configuration arithmetic in `main` -/

/-- Effective preload depth (main.rs:228-232): `args.preload_frames` when
positive, otherwise `args.framerate`. -/
def preloadFrames (preload_arg framerate : Nat) : Nat :=
  if preload_arg > 0 then preload_arg else framerate

/-- Capacity of every per-lane crossbeam channel, the literal in
`channel::bounded::<RgbImage>(10)` at main.rs:251. -/
def laneChannelCapacity : Nat := 10

/-- Frame interval computed at main.rs:275 as `1000 / args.framerate`
(unguarded `usize` division).  Rust's integer division by zero panics, which
the embedding models as `none`; otherwise the truncated quotient is
returned. -/
def frametimeMs (framerate : Nat) : Option Nat :=
  if framerate = 0 then none else some (1000 / framerate)

/-! ## Backpressure on one lane channel (main.rs:75, 125, 135-137)

The loader's inner loop runs under the guard `tx.len() < opts.preload`; each
iteration re-checks the guard, loads and decodes one frame, and then calls
`tx.send` (which, on the bounded channel of main.rs:251, completes only when
the buffer holds fewer than its capacity).  When the guard fails the worker
sleeps 100 ms and re-checks.  The channel has a single producer (the owning
worker) and a single consumer (the graphics loop), so between the worker's
length check and its send the length can only shrink.  The model makes the
check and the send separate steps, with `pending` recording that the check
has passed but the send has not yet happened. -/

structure BPState where
  len : Nat
  pending : Bool
  deriving DecidableEq

/-- Lane channel state at startup: empty, worker between iterations. -/
def bpInit : BPState := ⟨0, false⟩

/-- Events on one lane channel: the worker observes `tx.len() < preload`
(main.rs:75) and begins a load-decode-push iteration; the send completes
(main.rs:125, gated by the bounded capacity); the graphics loop pops one
frame; or the worker pauses because the guard failed (main.rs:135-137). -/
inductive BPStep (preload cap : Nat) : BPState → BPState → Prop where
  | observe (s : BPState) (hp : s.pending = false) (hlt : s.len < preload) :
      BPStep preload cap s ⟨s.len, true⟩
  | push (s : BPState) (hp : s.pending = true) (hcap : s.len < cap) :
      BPStep preload cap s ⟨s.len + 1, false⟩
  | pop (s : BPState) (hlen : 0 < s.len) :
      BPStep preload cap s ⟨s.len - 1, s.pending⟩
  | pause (s : BPState) (hp : s.pending = false) (hge : preload ≤ s.len) :
      BPStep preload cap s s

/-- Lane channel states reachable from startup. -/
inductive BPReach (preload cap : Nat) : BPState → Prop where
  | init : BPReach preload cap bpInit
  | step {s s'} : BPReach preload cap s → BPStep preload cap s s' →
      BPReach preload cap s'

/-! ## Crossbeam channel contents and `try_recv` (main.rs:285-300)

A channel is modelled by its buffered frame payloads — identified here by
their frame index, which is the only property the ordering argument needs —
together with whether the sending side is still alive.  When a loader thread
returns (normally or through `break 'outer`), its `tx` is dropped and the
channel becomes disconnected.  Crossbeam's `try_recv` delivers remaining
buffered messages even after disconnection, returns `Empty` on an empty
connected channel, and `Disconnected` on an empty disconnected one. -/

structure Chan where
  buf : List Nat
  connected : Bool
  deriving DecidableEq

/-- A lane channel as constructed at main.rs:251: empty, sender alive. -/
def defaultChan : Chan := ⟨[], true⟩

/-- The worker's `tx.send` of a decoded frame (main.rs:125). -/
def chanPush (c : Chan) (v : Nat) : Chan := ⟨c.buf ++ [v], c.connected⟩

/-- The loader thread returning: its `Sender` is dropped. -/
def chanDrop (c : Chan) : Chan := ⟨c.buf, false⟩

inductive TryRecvResult where
  | ok (v : Nat)
  | empty
  | disconnected
  deriving DecidableEq

/-- Crossbeam's `Receiver::try_recv` on a single-consumer channel. -/
def tryRecv (c : Chan) : TryRecvResult × Chan :=
  match c.buf with
  | v :: rest => (TryRecvResult.ok v, ⟨rest, c.connected⟩)
  | [] =>
    if c.connected then (TryRecvResult.empty, c) else (TryRecvResult.disconnected, c)

/-- State of the graphics loop: `cur_frame` (the playback cursor), the
frames drawn so far, and whether the loop has executed `break`. -/
structure GfxState where
  cursor : Nat
  rendered : List Nat
  stopped : Bool
  deriving DecidableEq

/-- The body of one due tick of the graphics loop (main.rs:285-300): a
non-blocking pop from channel `cur_frame % img_thread_cnt`.  `Ok` draws the
frame and advances the cursor; `Empty` (underrun) only logs; any other
channel error (`Disconnected`) logs and breaks the loop. -/
def gfxPopTick (img_thread_cnt : Nat) (chans : List Chan) (g : GfxState) :
    List Chan × GfxState :=
  match tryRecv (chans.getD (g.cursor % img_thread_cnt) defaultChan) with
  | (TryRecvResult.ok v, c2) =>
      (chans.set (g.cursor % img_thread_cnt) c2,
        { g with cursor := g.cursor + 1, rendered := g.rendered ++ [v] })
  | (TryRecvResult.empty, _) => (chans, g)
  | (TryRecvResult.disconnected, _) => (chans, { g with stopped := true })

/-! ## Loader worker control flow (main.rs:72-141)

`workerRun` is the loader thread's frame loop abstracted from timing and
queue backpressure (backpressure only pauses the loop between iterations —
see `BPStep` — and the skip/load/error control flow is unaffected by where
the pauses fall).  The outcome of `ImageReader::open` (main.rs:90) and
`decode` (main.rs:105) on each frame is supplied by an oracle `load`. -/

inductive LoadResult where
  | ok
  | ioError
  | decodeError
  deriving DecidableEq

def LoadResult.isOk : LoadResult → Bool
  | LoadResult.ok => true
  | _ => false

/-- The loader loop from `cur_frame = cur` with `fuel` candidate indices
left before `frame_cnt` is reached: skip frames owned by other threads
(main.rs:80-84), push owned frames that load and decode (main.rs:125), and
terminate the whole loop (`break 'outer`, main.rs:98/113) on the first
owned frame whose open or decode fails.  Returns the pushed frame indices
in push order, and the owned index at which the worker died (if any). -/
def workerRun (thread_cnt thread_id : Nat) (load : Nat → LoadResult) :
    Nat → Nat → List Nat × Option Nat
  | 0, _ => ([], none)
  | fuel + 1, cur =>
    if cur % thread_cnt ≠ thread_id then
      workerRun thread_cnt thread_id load fuel (cur + 1)
    else
      match load cur with
      | LoadResult.ok =>
        let r := workerRun thread_cnt thread_id load fuel (cur + 1)
        (cur :: r.1, r.2)
      | _ => ([], some cur)

/-- A loader thread's complete run: `cur_frame` starts at `opts.begin = 0`
(main.rs:257, 70) and the loop ends at `frame_cnt`. -/
def workerOutput (thread_cnt thread_id frame_cnt : Nat)
    (load : Nat → LoadResult) : List Nat × Option Nat :=
  workerRun thread_cnt thread_id load frame_cnt 0

/-! ## Scheduler pacing (main.rs:275-304) -/

structure SchedState where
  last_ms : Nat
  cursor : Nat
  attempts : Nat
  deriving DecidableEq

/-- One iteration of the graphics while-loop viewed through its pacing gate
(main.rs:279-303): read the clock; if `cur_ms > last_ms + frametime_ms`,
reset `last_ms` to `cur_ms` (phase reset) and attempt exactly one
non-blocking pop — `avail` says whether the selected lane had a frame
ready, in which case the cursor advances by one; otherwise sleep 1 ms with
the state unchanged.  `attempts` counts the pop attempts. -/
def schedStep (frametime : Nat) (s : SchedState) (cur_ms : Nat)
    (avail : Bool) : SchedState :=
  if s.last_ms + frametime < cur_ms then
    if avail then ⟨cur_ms, s.cursor + 1, s.attempts + 1⟩
    else ⟨cur_ms, s.cursor, s.attempts + 1⟩
  else s

/-- The loop iterated over a list of `(clock reading, frame available)`
observations. -/
def schedRun (frametime : Nat) (s : SchedState) :
    List (Nat × Bool) → SchedState
  | [] => s
  | (t, a) :: rest => schedRun frametime (schedStep frametime s t a) rest

/-! ## Whole-pipeline ordering (loaders main.rs:72-127, scheduler
main.rs:279-304)

Interleaved execution of the `thread_cnt` loader threads and the graphics
loop.  Lane `w`'s channel contents are `lanes[w]`; `nextLoad[w]` is the next
owned index lane `w` will push (each worker walks `cur_frame` upward from 0,
skipping non-owned indices, so its pushes are its owned indices `w, w+N,
w+2*N, ...` in ascending order).  The scheduler state is the playback cursor
`cur_frame` plus `popLog`, the `(lane, frame)` pairs of its successful pops
in order.  A `produce` step is one successful load-decode-send by a worker;
a `pop` step is one due tick whose `try_recv` from channel
`cur_frame % thread_cnt` succeeds (main.rs:285-291), rendering the frame and
advancing the cursor.  Underrun ticks leave the state unchanged and need no
step. -/

structure PipeState where
  lanes : List (List Nat)
  nextLoad : List Nat
  cursor : Nat
  popLog : List (Nat × Nat)
  deriving DecidableEq

/-- Startup: all channels empty, lane `w`'s first owned index is `w`,
cursor 0, nothing rendered. -/
def initPipe (N : Nat) : PipeState :=
  ⟨List.replicate N [], List.range N, 0, []⟩

/-- Interleaved pipeline events for `thread_cnt = N`, `total_frames = T`. -/
inductive PipeStep (N T : Nat) : PipeState → PipeState → Prop where
  | produce (s : PipeState) (w : Nat) (hw : w < N)
      (hT : s.nextLoad.getD w 0 < T) :
      PipeStep N T s
        ⟨s.lanes.set w (s.lanes.getD w [] ++ [s.nextLoad.getD w 0]),
         s.nextLoad.set w (s.nextLoad.getD w 0 + N),
         s.cursor, s.popLog⟩
  | pop (s : PipeState) (v : Nat) (rest : List Nat)
      (h : s.lanes.getD (s.cursor % N) [] = v :: rest) :
      PipeStep N T s
        ⟨s.lanes.set (s.cursor % N) rest, s.nextLoad, s.cursor + 1,
         s.popLog ++ [(s.cursor % N, v)]⟩

/-- Pipeline states reachable from startup. -/
inductive PipeReach (N T : Nat) : PipeState → Prop where
  | init : PipeReach N T (initPipe N)
  | step {s s'} : PipeReach N T s → PipeStep N T s s' → PipeReach N T s'

/-- The pipeline invariant: the pop log is exactly the frames
`0, ..., cursor-1`, each popped from the lane its index selects; every
lane's next owned index is at least the cursor and congruent to the lane id;
and every lane buffer holds exactly the lane's owned indices in
`[cursor, nextLoad)`, in ascending order. -/
def PipeInv (N : Nat) (s : PipeState) : Prop :=
  s.lanes.length = N ∧ s.nextLoad.length = N ∧
  s.popLog = (List.range s.cursor).map (fun i => (i % N, i)) ∧
  ∀ w, w < N →
    (s.nextLoad.getD w 0) % N = w ∧
    s.cursor ≤ s.nextLoad.getD w 0 ∧
    s.lanes.getD w []
      = (List.range' s.cursor (s.nextLoad.getD w 0 - s.cursor)).filter
          (fun i => i % N == w)

end BadApple

namespace BadApple

/-! ## Helper lemmas -/

theorem getD_set_self {α : Type} (l : List α) (i : Nat) (x d : α)
    (h : i < l.length) : (l.set i x).getD i d = x := by
  induction l generalizing i with
  | nil => simp at h
  | cons a t ih =>
    cases i with
    | zero => rfl
    | succ n =>
      have hn : n < t.length := by simpa using h
      simpa [List.getD] using ih n hn

theorem getD_set_ne {α : Type} (l : List α) (i j : Nat) (x d : α)
    (h : i ≠ j) : (l.set i x).getD j d = l.getD j d := by
  induction l generalizing i j with
  | nil => simp
  | cons a t ih =>
    cases i with
    | zero =>
      cases j with
      | zero => exact absurd rfl h
      | succ m => rfl
    | succ n =>
      cases j with
      | zero => rfl
      | succ m =>
        have hnm : n ≠ m := fun he => h (by rw [he])
        simpa [List.getD] using ih n m hnm

theorem getD_range' (s n i : Nat) (d : Nat) (h : i < n) :
    (List.range' s n).getD i d = s + i := by
  induction n generalizing s i with
  | zero => omega
  | succ m ih =>
    have hr : List.range' s (m + 1) = s :: List.range' (s + 1) m := by
      simpa using List.range'_succ s m 1
    rw [hr]
    cases i with
    | zero => rfl
    | succ k =>
      have hk : k < m := by omega
      have := ih (s + 1) k hk
      simpa [List.getD, Nat.add_assoc, Nat.add_comm 1 k] using this

theorem getD_range (n i : Nat) (h : i < n) : (List.range n).getD i 0 = i := by
  rw [List.range_eq_range']
  simpa using getD_range' 0 n i 0 h

theorem getD_replicate {α : Type} (a : α) (n i : Nat) (d : α) (h : i < n) :
    (List.replicate n a).getD i d = a := by
  induction n generalizing i with
  | zero => omega
  | succ m ih =>
    cases i with
    | zero => rfl
    | succ k =>
      have hk : k < m := by omega
      have hrep : List.replicate (m + 1) a = a :: List.replicate m a := rfl
      rw [hrep]
      simpa [List.getD] using ih k hk

theorem range'_cons (c k : Nat) (h : 0 < k) :
    List.range' c k = c :: List.range' (c + 1) (k - 1) := by
  have h1 : k = (k - 1) + 1 := by omega
  rw [h1]
  simpa using List.range'_succ c (k - 1) 1

theorem range'_split (c L n : Nat) (h : c ≤ L) :
    List.range' c (L + n - c) = List.range' c (L - c) ++ List.range' L n := by
  have happ := List.range'_append c (L - c) n 1
  rw [one_mul, show c + (L - c) = L from by omega,
    show n + (L - c) = L + n - c from by omega] at happ
  exact happ.symm

/-- In any window of `N` consecutive integers starting at a multiple-offset
`L` with `L % N = w`, the only one congruent to `w` is `L` itself. -/
theorem filter_mod_range'_window (N w L : Nat) (hw : w < N)
    (hL : L % N = w) :
    (List.range' L N).filter (fun i => i % N == w) = [L] := by
  have hN : 0 < N := Nat.lt_of_le_of_lt (Nat.zero_le w) hw
  rw [range'_cons L N hN, List.filter_cons]
  have hLp : (L % N == w) = true := by simpa using hL
  rw [hLp]
  have htail : (List.range' (L + 1) (N - 1)).filter (fun i => i % N == w)
      = [] := by
    rw [List.filter_eq_nil_iff]
    intro a ha
    rw [List.mem_range'_1] at ha
    have hrw : a = L + (a - L) := by omega
    have hmod : a % N = (w + (a - L)) % N := by
      conv_lhs => rw [hrw]
      rw [Nat.add_mod, hL, Nat.mod_eq_of_lt (show a - L < N from by omega)]
    simp only [beq_iff_eq]
    rw [hmod]
    by_cases hc : w + (a - L) < N
    · rw [Nat.mod_eq_of_lt hc]
      omega
    · rw [Nat.mod_eq_sub_mod (show N ≤ w + (a - L) from by omega),
        Nat.mod_eq_of_lt (show w + (a - L) - N < N from by omega)]
      omega
  rw [htail]
  rfl

theorem tryRecv_eq_empty {c : Chan} (hbuf : c.buf = [])
    (hconn : c.connected = true) : tryRecv c = (TryRecvResult.empty, c) := by
  unfold tryRecv
  rw [hbuf, hconn]
  simp

theorem tryRecv_eq_disconnected {c : Chan} (hbuf : c.buf = [])
    (hconn : c.connected = false) :
    tryRecv c = (TryRecvResult.disconnected, c) := by
  unfold tryRecv
  rw [hbuf, hconn]
  simp

theorem tryRecv_eq_ok {c : Chan} {v : Nat} {rest : List Nat}
    (hbuf : c.buf = v :: rest) :
    tryRecv c = (TryRecvResult.ok v, ⟨rest, c.connected⟩) := by
  unfold tryRecv
  rw [hbuf]

theorem mem_laneIndexSet {N T w i : Nat} :
    i ∈ laneIndexSet N T w ↔ i < T ∧ i % N = w := by
  simp [laneIndexSet, ownsFrame, Finset.mem_filter, Finset.mem_range]

theorem zeroPad3_length (n : Nat) :
    (zeroPad3 n).length = max 3 (Nat.repr n).length := by
  unfold zeroPad3
  by_cases h : (Nat.repr n).length < 3
  · simp only [h, if_true, String.length_append]
    have hmk : (String.mk (List.replicate (3 - (Nat.repr n).length) '0')).length
        = 3 - (Nat.repr n).length := by
      show (List.replicate (3 - (Nat.repr n).length) '0').length = _
      simp
    omega
  · simp only [h, if_false]
    omega

theorem bpReach_invariant {preload cap : Nat} {s : BPState}
    (h : BPReach preload cap s) :
    s.len ≤ preload ∧ s.len ≤ cap ∧ (s.pending = true → s.len < preload) := by
  induction h with
  | init => exact ⟨Nat.zero_le _, Nat.zero_le _, fun hc => Bool.noConfusion hc⟩
  | step _ hs ih =>
    obtain ⟨h₁, h₂, h₃⟩ := ih
    cases hs with
    | observe hp hlt => exact ⟨h₁, h₂, fun _ => hlt⟩
    | push hp hcap =>
      exact ⟨h₃ hp, hcap, fun hc => Bool.noConfusion hc⟩
    | pop hlen =>
      exact ⟨Nat.le_trans (Nat.sub_le _ _) h₁, Nat.le_trans (Nat.sub_le _ _) h₂,
        fun hc => Nat.lt_of_le_of_lt (Nat.sub_le _ _) (h₃ hc)⟩
    | pause hp hge => exact ⟨h₁, h₂, h₃⟩

/-- A concrete reachable lane-channel state with preload depth 2:
observe room, then complete the send. -/
theorem bpReachExample : BPReach 2 10 ⟨1, false⟩ :=
  BPReach.step
    (BPReach.step BPReach.init (BPStep.observe bpInit rfl (by decide)))
    (BPStep.push ⟨0, true⟩ rfl (by decide))

theorem head?_dropWhile_eq_some {α : Type} (p : α → Bool) (l : List α) (a : α)
    (h : (l.dropWhile p).head? = some a) : p a = false := by
  induction l with
  | nil => simp [List.dropWhile] at h
  | cons x t ih =>
    by_cases hx : p x = true
    · have hd : List.dropWhile p (x :: t) = List.dropWhile p t := by
        simp [List.dropWhile, hx]
      rw [hd] at h
      exact ih h
    · have hx' : p x = false := by simpa using hx
      have hd : List.dropWhile p (x :: t) = x :: t := by
        simp [List.dropWhile, hx']
      rw [hd] at h
      have hxa : x = a := by simpa using h
      rw [← hxa]
      exact hx'

/-- The loader loop produces exactly the longest prefix of its owned index
list on which every load succeeds, and dies at the first owned index whose
load fails. -/
theorem workerRun_eq (N w : Nat) (load : Nat → LoadResult) (fuel cur : Nat) :
    workerRun N w load fuel cur
      = (((List.range' cur fuel).filter (fun i => i % N == w)).takeWhile
          (fun i => (load i).isOk),
        (((List.range' cur fuel).filter (fun i => i % N == w)).dropWhile
          (fun i => (load i).isOk)).head?) := by
  induction fuel generalizing cur with
  | zero => rfl
  | succ n ih =>
    have hr : List.range' cur (n + 1) = cur :: List.range' (cur + 1) n := by
      simpa using List.range'_succ cur n 1
    by_cases h : cur % N = w
    · cases hl : load cur with
      | ok =>
        have hstep : workerRun N w load (n + 1) cur
            = (cur :: (workerRun N w load n (cur + 1)).1,
               (workerRun N w load n (cur + 1)).2) := by
          simp [workerRun, h, hl]
        rw [hstep, ih, hr]
        simp [List.filter_cons, h, List.takeWhile, List.dropWhile, hl,
          LoadResult.isOk]
      | ioError =>
        have hstep : workerRun N w load (n + 1) cur = ([], some cur) := by
          simp [workerRun, h, hl]
        rw [hstep, hr]
        simp [List.filter_cons, h, List.takeWhile, List.dropWhile, hl,
          LoadResult.isOk]
      | decodeError =>
        have hstep : workerRun N w load (n + 1) cur = ([], some cur) := by
          simp [workerRun, h, hl]
        rw [hstep, hr]
        simp [List.filter_cons, h, List.takeWhile, List.dropWhile, hl,
          LoadResult.isOk]
    · have hstep : workerRun N w load (n + 1) cur
          = workerRun N w load n (cur + 1) := by
        simp [workerRun, h]
      rw [hstep, ih, hr]
      simp [List.filter_cons, h]

theorem schedRun_cursor_bound {frametime : Nat} (hft : 0 < frametime)
    (M : Nat) :
    ∀ (ticks : List (Nat × Bool)) (s : SchedState),
      (∀ p ∈ ticks, p.1 ≤ M) →
      (schedRun frametime s ticks).cursor
        ≤ s.cursor + (M - s.last_ms) / frametime := by
  intro ticks
  induction ticks with
  | nil =>
    intro s _
    simp [schedRun]
  | cons p rest ih =>
    obtain ⟨t, a⟩ := p
    intro s hb
    have ht : t ≤ M := hb (t, a) (List.mem_cons_self _ _)
    have hrest : ∀ q ∈ rest, q.1 ≤ M := fun q hq => hb q (List.mem_cons_of_mem _ hq)
    show (schedRun frametime (schedStep frametime s t a) rest).cursor ≤ _
    by_cases hgate : s.last_ms + frametime < t
    · by_cases ha : a = true
      · have hstep : schedStep frametime s t a
            = ⟨t, s.cursor + 1, s.attempts + 1⟩ := by
          simp [schedStep, hgate, ha]
        rw [hstep]
        have h2 : (schedRun frametime ⟨t, s.cursor + 1, s.attempts + 1⟩
              rest).cursor ≤ s.cursor + 1 + (M - t) / frametime := by
          simpa using ih ⟨t, s.cursor + 1, s.attempts + 1⟩ hrest
        have hdiv : (M - t) / frametime + 1 = (M - t + frametime) / frametime :=
          (Nat.add_div_right _ hft).symm
        have hle : M - t + frametime ≤ M - s.last_ms := by omega
        have h3 := Nat.div_le_div_right (c := frametime) hle
        omega
      · have ha' : a = false := by simpa using ha
        have hstep : schedStep frametime s t a
            = ⟨t, s.cursor, s.attempts + 1⟩ := by
          simp [schedStep, hgate, ha']
        rw [hstep]
        have h2 : (schedRun frametime ⟨t, s.cursor, s.attempts + 1⟩
              rest).cursor ≤ s.cursor + (M - t) / frametime := by
          simpa using ih ⟨t, s.cursor, s.attempts + 1⟩ hrest
        have hle : M - t ≤ M - s.last_ms := by omega
        have h3 := Nat.div_le_div_right (c := frametime) hle
        omega
    · have hstep : schedStep frametime s t a = s := by simp [schedStep, hgate]
      rw [hstep]
      exact ih s hrest

theorem pipeInv_init (N : Nat) : PipeInv N (initPipe N) := by
  refine ⟨?_, ?_, rfl, ?_⟩
  · show (List.replicate N ([] : List Nat)).length = N
    simp
  · show (List.range N).length = N
    simp
  · intro w hw
    have hnl : (List.range N).getD w 0 = w := getD_range N w hw
    have hlane : (List.replicate N ([] : List Nat)).getD w [] = [] :=
      getD_replicate [] N w [] hw
    refine ⟨?_, ?_, ?_⟩
    · show (List.range N).getD w 0 % N = w
      rw [hnl]
      exact Nat.mod_eq_of_lt hw
    · exact Nat.zero_le _
    · show (List.replicate N ([] : List Nat)).getD w []
        = (List.range' 0 ((List.range N).getD w 0 - 0)).filter
            (fun i => i % N == w)
      rw [hlane, hnl]
      symm
      rw [List.filter_eq_nil_iff]
      intro a ha
      rw [List.mem_range'_1] at ha
      simp only [beq_iff_eq]
      rw [Nat.mod_eq_of_lt (show a < N from by omega)]
      omega

theorem pipeInv_step {N T : Nat} (hN : 1 ≤ N) {s s' : PipeState}
    (hinv : PipeInv N s) (hstep : PipeStep N T s s') : PipeInv N s' := by
  obtain ⟨hlen1, hlen2, hlog, hlane⟩ := hinv
  cases hstep with
  | produce w hw hT =>
    obtain ⟨hmod, hcur, hbuf⟩ := hlane w hw
    refine ⟨?_, ?_, hlog, ?_⟩
    · show (s.lanes.set w (s.lanes.getD w [] ++ [s.nextLoad.getD w 0])).length = N
      rw [List.length_set]
      exact hlen1
    · show (s.nextLoad.set w (s.nextLoad.getD w 0 + N)).length = N
      rw [List.length_set]
      exact hlen2
    · intro u hu
      by_cases huw : u = w
      · subst huw
        have hg1 : (s.lanes.set u
              (s.lanes.getD u [] ++ [s.nextLoad.getD u 0])).getD u []
            = s.lanes.getD u [] ++ [s.nextLoad.getD u 0] :=
          getD_set_self _ _ _ _ (by omega)
        have hg2 : (s.nextLoad.set u (s.nextLoad.getD u 0 + N)).getD u 0
            = s.nextLoad.getD u 0 + N :=
          getD_set_self _ _ _ _ (by omega)
        refine ⟨?_, ?_, ?_⟩
        · show (s.nextLoad.set u (s.nextLoad.getD u 0 + N)).getD u 0 % N = u
          rw [hg2, Nat.add_mod_right]
          exact hmod
        · show s.cursor ≤ (s.nextLoad.set u (s.nextLoad.getD u 0 + N)).getD u 0
          rw [hg2]
          omega
        · show (s.lanes.set u
              (s.lanes.getD u [] ++ [s.nextLoad.getD u 0])).getD u []
            = (List.range' s.cursor
                ((s.nextLoad.set u (s.nextLoad.getD u 0 + N)).getD u 0
                  - s.cursor)).filter (fun i => i % N == u)
          rw [hg1, hg2,
            range'_split s.cursor (s.nextLoad.getD u 0) N hcur,
            List.filter_append,
            filter_mod_range'_window N u (s.nextLoad.getD u 0) hu hmod,
            ← hbuf]
      · have hne : w ≠ u := fun he => huw he.symm
        have hg1 : (s.lanes.set w
              (s.lanes.getD w [] ++ [s.nextLoad.getD w 0])).getD u []
            = s.lanes.getD u [] :=
          getD_set_ne _ _ _ _ _ hne
        have hg2 : (s.nextLoad.set w (s.nextLoad.getD w 0 + N)).getD u 0
            = s.nextLoad.getD u 0 :=
          getD_set_ne _ _ _ _ _ hne
        obtain ⟨hm, hc, hb⟩ := hlane u hu
        refine ⟨?_, ?_, ?_⟩
        · show (s.nextLoad.set w (s.nextLoad.getD w 0 + N)).getD u 0 % N = u
          rw [hg2]
          exact hm
        · show s.cursor ≤ (s.nextLoad.set w (s.nextLoad.getD w 0 + N)).getD u 0
          rw [hg2]
          exact hc
        · show (s.lanes.set w
              (s.lanes.getD w [] ++ [s.nextLoad.getD w 0])).getD u []
            = (List.range' s.cursor
                ((s.nextLoad.set w (s.nextLoad.getD w 0 + N)).getD u 0
                  - s.cursor)).filter (fun i => i % N == u)
          rw [hg1, hg2]
          exact hb
  | pop v rest h =>
    have hNpos : 0 < N := by omega
    have hw' : s.cursor % N < N := Nat.mod_lt _ hNpos
    obtain ⟨hmod, hcur, hbuf⟩ := hlane (s.cursor % N) hw'
    have hlist : v :: rest
        = (List.range' s.cursor
            (s.nextLoad.getD (s.cursor % N) 0 - s.cursor)).filter
              (fun i => i % N == s.cursor % N) := h.symm.trans hbuf
    have hkpos : 0 < s.nextLoad.getD (s.cursor % N) 0 - s.cursor := by
      rcases Nat.eq_zero_or_pos (s.nextLoad.getD (s.cursor % N) 0 - s.cursor)
        with h0 | hpos
      · rw [h0] at hlist
        simp at hlist
      · exact hpos
    have hsplit : List.range' s.cursor
          (s.nextLoad.getD (s.cursor % N) 0 - s.cursor)
        = s.cursor :: List.range' (s.cursor + 1)
            (s.nextLoad.getD (s.cursor % N) 0 - s.cursor - 1) :=
      range'_cons _ _ hkpos
    rw [hsplit, List.filter_cons] at hlist
    simp only [beq_self_eq_true, if_true] at hlist
    have hv : v = s.cursor := (List.cons.injEq _ _ _ _ ▸ hlist).1
    have hrest : rest = (List.range' (s.cursor + 1)
          (s.nextLoad.getD (s.cursor % N) 0 - s.cursor - 1)).filter
            (fun i => i % N == s.cursor % N) :=
      (List.cons.injEq _ _ _ _ ▸ hlist).2
    refine ⟨?_, ?_, ?_, ?_⟩
    · show (s.lanes.set (s.cursor % N) rest).length = N
      rw [List.length_set]
      exact hlen1
    · exact hlen2
    · show s.popLog ++ [(s.cursor % N, v)]
        = (List.range (s.cursor + 1)).map (fun i => (i % N, i))
      rw [hlog, hv, List.range_succ, List.map_append]
      rfl
    · intro u hu
      obtain ⟨hm, hc, hb⟩ := hlane u hu
      by_cases huw : u = s.cursor % N
      · refine ⟨hm, ?_, ?_⟩
        · show s.cursor + 1 ≤ s.nextLoad.getD u 0
          rw [huw]
          omega
        · show (s.lanes.set (s.cursor % N) rest).getD u []
            = (List.range' (s.cursor + 1)
                (s.nextLoad.getD u 0 - (s.cursor + 1))).filter
                  (fun i => i % N == u)
          rw [← huw] at hrest ⊢
          rw [getD_set_self _ _ _ _ (show u < s.lanes.length from by omega),
            hrest, show s.nextLoad.getD u 0 - (s.cursor + 1)
              = s.nextLoad.getD u 0 - s.cursor - 1 from by omega]
      · have hne : s.cursor % N ≠ u := fun he => huw he.symm
        have hcne : s.cursor ≠ s.nextLoad.getD u 0 := by
          intro he
          apply hne
          rw [he]
          exact hm
        refine ⟨hm, ?_, ?_⟩
        · show s.cursor + 1 ≤ s.nextLoad.getD u 0
          omega
        · show (s.lanes.set (s.cursor % N) rest).getD u []
            = (List.range' (s.cursor + 1)
                (s.nextLoad.getD u 0 - (s.cursor + 1))).filter
                  (fun i => i % N == u)
          rw [getD_set_ne _ _ _ _ _ hne, hb,
            range'_cons s.cursor (s.nextLoad.getD u 0 - s.cursor) (by omega),
            List.filter_cons]
          have hfc : (s.cursor % N == u) = false := by
            simp only [beq_eq_false_iff_ne, ne_eq]
            exact hne
          rw [hfc, show s.nextLoad.getD u 0 - s.cursor - 1
            = s.nextLoad.getD u 0 - (s.cursor + 1) from by omega]
          simp

theorem pipeReach_inv {N T : Nat} (hN : 1 ≤ N) {s : PipeState}
    (h : PipeReach N T s) : PipeInv N s := by
  induction h with
  | init => exact pipeInv_init N
  | step _ hs ih => exact pipeInv_step hN ih hs

/-! ## Claim theorems -/

/-- C2: for every lane_count `N ≥ 1` and total_frames `T`, the index sets
`{i ∈ [0,T) : i % N == w}` assigned to the lanes `w < N` are pairwise
disjoint and their union is exactly `[0,T)`: every frame index is owned by
exactly one lane. -/
theorem partition_disjoint_complete (N T : Nat) (hN : 1 ≤ N) :
    (∀ w₁ w₂, w₁ < N → w₂ < N → w₁ ≠ w₂ →
      Disjoint (laneIndexSet N T w₁) (laneIndexSet N T w₂)) ∧
    (Finset.range N).biUnion (laneIndexSet N T) = Finset.range T := by
  constructor
  · intro w₁ w₂ _ _ hne
    rw [Finset.disjoint_left]
    intro i h₁ h₂
    rw [mem_laneIndexSet] at h₁ h₂
    exact hne (h₁.2 ▸ h₂.2)
  · ext i
    simp only [Finset.mem_biUnion, Finset.mem_range, mem_laneIndexSet]
    constructor
    · rintro ⟨w, _, hiT, _⟩
      exact hiT
    · intro hiT
      exact ⟨i % N, Nat.mod_lt i hN, hiT, rfl⟩

theorem partition_disjoint_complete_witness :
    1 ≤ 2 ∧ (Finset.range 2).biUnion (laneIndexSet 2 4) = Finset.range 4 :=
  ⟨by decide, (partition_disjoint_complete 2 4 (by decide)).2⟩

/-- C9: the loader reads frame index `i` from
`{directory}/{i+1 zero-padded to at least 3 digits}.{extension}` —
1-based numbering, so index 41 maps to `042.jpg` with the default
extension; the padded field is zeros followed by the decimal digits of
`i + 1`, and its width is exactly `max 3 (number of digits)`. -/
theorem frame_filename_mapping :
    imgFname "/usr/share/bad-apple" 41 "jpg" = "/usr/share/bad-apple/042.jpg" ∧
    (∀ dir i fmt, (imgFname dir i fmt).data
        = dir.data ++ '/' :: ((zeroPad3 (i + 1)).data ++ '.' :: fmt.data)) ∧
    (∀ i, 3 ≤ (zeroPad3 (i + 1)).length) ∧
    (∀ i, (zeroPad3 (i + 1)).length = max 3 (Nat.repr (i + 1)).length) ∧
    (∀ i, ∃ k, (zeroPad3 (i + 1)).data
        = List.replicate k '0' ++ (Nat.repr (i + 1)).data) := by
  refine ⟨rfl, ?_, ?_, ?_, ?_⟩
  · intro dir i fmt
    simp [imgFname, String.data_append]
  · intro i
    have h := zeroPad3_length (i + 1)
    omega
  · intro i
    exact zeroPad3_length (i + 1)
  · intro i
    unfold zeroPad3
    by_cases h : (Nat.repr (i + 1)).length < 3
    · exact ⟨3 - (Nat.repr (i + 1)).length, by simp [h, String.data_append]⟩
    · exact ⟨0, by simp [h]⟩

/-- C10: the frame interval `1000 / framerate` at main.rs:275 is an
unguarded integer division: framerate 0 panics (modelled as `none`), and
any framerate above 1000 truncates the interval to 0. -/
theorem frametime_division_unguarded :
    frametimeMs 0 = none ∧ ∀ fr, 1000 < fr → frametimeMs fr = some 0 := by
  constructor
  · rfl
  · intro fr hfr
    have hz : 1000 / fr = 0 := Nat.div_eq_of_lt hfr
    simp [frametimeMs, hz]
    omega

theorem frametime_division_unguarded_witness :
    1000 < 1001 ∧ frametimeMs 1001 = some 0 :=
  ⟨by decide, frametime_division_unguarded.2 1001 (by decide)⟩

/-- C3: in every reachable state of a lane channel, the queue length is at
least 0 and at most the configured preload depth; moreover whenever the
worker is mid load-decode-push (`pending`), it has observed room below the
preload depth, so the cap holds regardless of loading speed. -/
theorem lane_queue_backpressure_bound (preload cap : Nat) (s : BPState)
    (h : BPReach preload cap s) :
    0 ≤ s.len ∧ s.len ≤ preload ∧ (s.pending = true → s.len < preload) :=
  ⟨Nat.zero_le _, (bpReach_invariant h).1, (bpReach_invariant h).2.2⟩

theorem lane_queue_backpressure_bound_witness :
    0 ≤ (⟨1, false⟩ : BPState).len ∧ (⟨1, false⟩ : BPState).len ≤ 2 ∧
      ((⟨1, false⟩ : BPState).pending = true → (⟨1, false⟩ : BPState).len < 2) :=
  lane_queue_backpressure_bound 2 10 ⟨1, false⟩ bpReachExample

/-- C4 as stated is false: the lane queues are constructed with the fixed
capacity literal 10 (main.rs:251), while the configured preload depth
defaults to the framerate (60) when `preload_frames` is 0 (main.rs:228-232),
so the capacity does not equal the preload depth. -/
theorem lane_queue_capacity_counterexample :
    laneChannelCapacity ≠ preloadFrames 0 60 := by decide

/-- C4 amended: every lane queue is a bounded FIFO whose capacity is the
fixed constant 10, independent of the configured preload depth, and in
every reachable state 0 ≤ length ≤ 10 holds. -/
theorem lane_queue_fixed_capacity :
    laneChannelCapacity = 10 ∧
    ∀ preload s, BPReach preload laneChannelCapacity s →
      0 ≤ s.len ∧ s.len ≤ laneChannelCapacity :=
  ⟨rfl, fun _ _ h => ⟨Nat.zero_le _, (bpReach_invariant h).2.1⟩⟩

theorem lane_queue_fixed_capacity_witness :
    0 ≤ (⟨1, false⟩ : BPState).len ∧
      (⟨1, false⟩ : BPState).len ≤ laneChannelCapacity :=
  lane_queue_fixed_capacity.2 2 ⟨1, false⟩ bpReachExample

/-- C6: on a due tick whose selected lane channel is empty but still
connected (underrun), the graphics loop changes nothing: channels, cursor,
rendered list, lane selection and the stop flag are all untouched; and once
the owning lane has pushed the required frame, a later tick pops it,
renders it and advances the cursor by one. -/
theorem underrun_defers_and_recovers (N : Nat) (chans : List Chan)
    (g : GfxState) (hlane : g.cursor % N < chans.length)
    (hbuf : (chans.getD (g.cursor % N) defaultChan).buf = [])
    (hconn : (chans.getD (g.cursor % N) defaultChan).connected = true) :
    gfxPopTick N chans g = (chans, g) ∧
    ∀ v, (gfxPopTick N
        (chans.set (g.cursor % N)
          (chanPush (chans.getD (g.cursor % N) defaultChan) v)) g).2
      = { g with cursor := g.cursor + 1, rendered := g.rendered ++ [v] } := by
  constructor
  · unfold gfxPopTick
    rw [tryRecv_eq_empty hbuf hconn]
  · intro v
    have hset : (chans.set (g.cursor % N)
          (chanPush (chans.getD (g.cursor % N) defaultChan) v)).getD
            (g.cursor % N) defaultChan
        = chanPush (chans.getD (g.cursor % N) defaultChan) v :=
      getD_set_self _ _ _ _ hlane
    have hb : (chanPush (chans.getD (g.cursor % N) defaultChan) v).buf
        = v :: [] := by
      show (chans.getD (g.cursor % N) defaultChan).buf ++ [v] = v :: []
      rw [hbuf]
      rfl
    unfold gfxPopTick
    rw [hset, tryRecv_eq_ok hb]

theorem underrun_defers_and_recovers_witness :
    0 % 1 < ([⟨[], true⟩] : List Chan).length ∧
    gfxPopTick 1 [⟨[], true⟩] ⟨0, [], false⟩ = ([⟨[], true⟩], ⟨0, [], false⟩) ∧
    (gfxPopTick 1 (([⟨[], true⟩] : List Chan).set (0 % 1)
        (chanPush (([⟨[], true⟩] : List Chan).getD (0 % 1) defaultChan) 5))
        ⟨0, [], false⟩).2 = ⟨1, [5], false⟩ := by
  have h := underrun_defers_and_recovers 1 [⟨[], true⟩] ⟨0, [], false⟩
    (by decide) rfl rfl
  exact ⟨by decide, h.1, h.2 5⟩

/-- C5 as stated is false: when the dead lane's channel has been drained and
its worker thread has terminated (dropping its `Sender`), the scheduler's
`try_recv` returns `Disconnected` and control reaches the catch-all error
arm at main.rs:295-299, which executes `break` — the playback loop
terminates instead of stalling forever.  Concretely, with two lanes, lane 0
dead and drained, and the cursor at frame 2 (owned by lane 0), the tick sets
the stop flag while leaving cursor and rendered frames unchanged. -/
theorem dead_lane_stall_counterexample :
    (gfxPopTick 2 [⟨[], false⟩, ⟨[], true⟩] ⟨2, [0, 1], false⟩).2
      = ⟨2, [0, 1], true⟩ := rfl

/-- C5 amended: if a loader worker terminates fatally before producing some
index it owns, then once the scheduler's cursor reaches that index after
draining the dead lane's queued frames, and the dead worker's sender has
been dropped, `try_recv` yields `Disconnected` and the scheduler terminates
its playback loop through the fatal-channel-error branch (a logged `break`,
not a panic); the cursor does not advance past the missing frame and no
further frame is rendered. -/
theorem dead_lane_breaks_loop (N : Nat) (chans : List Chan) (g : GfxState)
    (hbuf : (chans.getD (g.cursor % N) defaultChan).buf = [])
    (hconn : (chans.getD (g.cursor % N) defaultChan).connected = false) :
    gfxPopTick N chans g = (chans, { g with stopped := true }) := by
  unfold gfxPopTick
  rw [tryRecv_eq_disconnected hbuf hconn]

theorem dead_lane_breaks_loop_witness :
    gfxPopTick 2 [⟨[], false⟩, ⟨[], true⟩] ⟨0, [], false⟩
      = ([⟨[], false⟩, ⟨[], true⟩], ⟨0, [], true⟩) :=
  dead_lane_breaks_loop 2 [⟨[], false⟩, ⟨[], true⟩] ⟨0, [], false⟩ rfl rfl

/-- C7: a loader worker that hits an IOError (failed open) or DecodeError
(failed decode) on an owned frame terminates immediately: its pushed frames
are exactly the longest all-successful prefix of its owned index list, every
pushed frame loaded successfully, the failed frame is never pushed, and no
owned index at or beyond the failure is pushed (no retry, no
skip-and-continue).  The run of a worker is a function of its own lane
parameters only, so other lanes are untouched by construction. -/
theorem worker_fatal_error_isolated (N w T : Nat) (load : Nat → LoadResult) :
    (workerOutput N w T load).1
      = ((List.range T).filter (fun i => i % N == w)).takeWhile
          (fun i => (load i).isOk) ∧
    (workerOutput N w T load).2
      = (((List.range T).filter (fun i => i % N == w)).dropWhile
          (fun i => (load i).isOk)).head? ∧
    (∀ i ∈ (workerOutput N w T load).1, (load i).isOk = true) ∧
    ∀ f, (workerOutput N w T load).2 = some f →
      (load f).isOk = false ∧ f ∉ (workerOutput N w T load).1 ∧
      ∀ i ∈ (workerOutput N w T load).1, i < f := by
  have hrange : List.range T = List.range' 0 T := List.range_eq_range' T
  have hchar := workerRun_eq N w load T 0
  rw [← hrange] at hchar
  have h1 : (workerOutput N w T load).1
      = ((List.range T).filter (fun i => i % N == w)).takeWhile
          (fun i => (load i).isOk) := congrArg Prod.fst hchar
  have h2 : (workerOutput N w T load).2
      = (((List.range T).filter (fun i => i % N == w)).dropWhile
          (fun i => (load i).isOk)).head? := congrArg Prod.snd hchar
  refine ⟨h1, h2, ?_, ?_⟩
  · intro i hi
    rw [h1] at hi
    exact List.mem_takeWhile_imp (p := fun i => (load i).isOk) hi
  · intro f hf
    rw [h2] at hf
    have hpf : (fun i => (load i).isOk) f = false :=
      head?_dropWhile_eq_some (fun i => (load i).isOk)
        ((List.range T).filter (fun i => i % N == w)) f hf
    have hpf' : (load f).isOk = false := hpf
    refine ⟨hpf', ?_, ?_⟩
    · intro hmem
      rw [h1] at hmem
      have hok := List.mem_takeWhile_imp (p := fun i => (load i).isOk) hmem
      rw [hpf] at hok
      exact Bool.noConfusion hok
    · intro i hi
      rw [h1] at hi
      have hFsorted : (((List.range T).filter
          (fun i => i % N == w)).Pairwise (· < ·)) :=
        (List.pairwise_lt_range T).filter _
      have hsplit : (((List.range T).filter (fun i => i % N == w)).takeWhile
            (fun i => (load i).isOk)
          ++ ((List.range T).filter (fun i => i % N == w)).dropWhile
            (fun i => (load i).isOk)).Pairwise (· < ·) := by
        rw [List.takeWhile_append_dropWhile]
        exact hFsorted
      have hcross := (List.pairwise_append.mp hsplit).2.2
      have hfmem : f ∈ ((List.range T).filter
          (fun i => i % N == w)).dropWhile (fun i => (load i).isOk) :=
        List.mem_of_mem_head? (by simp [hf])
      exact hcross i hi f hfmem

theorem worker_fatal_error_isolated_witness :
    (workerOutput 2 0 6
      (fun i => if i = 4 then LoadResult.ioError else LoadResult.ok)).1
        = [0, 2] ∧
    (workerOutput 2 0 6
      (fun i => if i = 4 then LoadResult.ioError else LoadResult.ok)).2
        = some 4 := by
  have h := worker_fatal_error_isolated 2 0 6
    (fun i => if i = 4 then LoadResult.ioError else LoadResult.ok)
  exact ⟨h.1.trans (by decide), h.2.1.trans (by decide)⟩

/-- C8: the scheduler advances the cursor by at most one frame per tick even
with many frames buffered; a pop is attempted only once the clock exceeds
the last-tick timestamp plus the interval `1000/framerate` (16 at
framerate 60), at which point the timestamp is reset to the current time
(phase reset); consequently over any run whose clock readings stay at or
below `M`, the cursor advances by at most `(M - last_ms) / frametime`
frames: never more than one frame per elapsed interval. -/
theorem pacing_at_most_one_frame_per_interval :
    frametimeMs 60 = some 16 ∧
    (∀ ft s t a, (schedStep ft s t a).cursor ≤ s.cursor + 1) ∧
    (∀ ft s t a, (schedStep ft s t a).attempts ≠ s.attempts →
        s.last_ms + ft < t ∧ (schedStep ft s t a).last_ms = t) ∧
    (∀ ft s t a, (schedStep ft s t a).cursor ≠ s.cursor →
        (schedStep ft s t a).attempts ≠ s.attempts) ∧
    ∀ ft M (ticks : List (Nat × Bool)) s, 0 < ft →
      (∀ p ∈ ticks, p.1 ≤ M) →
      (schedRun ft s ticks).cursor ≤ s.cursor + (M - s.last_ms) / ft := by
  refine ⟨rfl, ?_, ?_, ?_, ?_⟩
  · intro ft s t a
    unfold schedStep
    by_cases hgate : s.last_ms + ft < t
    · by_cases ha : a = true
      · simp [hgate, ha]
      · have ha' : a = false := by simpa using ha
        simp [hgate, ha']
    · simp [hgate]
  · intro ft s t a hne
    by_cases hgate : s.last_ms + ft < t
    · refine ⟨hgate, ?_⟩
      unfold schedStep
      by_cases ha : a = true
      · simp [hgate, ha]
      · have ha' : a = false := by simpa using ha
        simp [hgate, ha']
    · exfalso
      apply hne
      unfold schedStep
      simp [hgate]
  · intro ft s t a hne
    by_cases hgate : s.last_ms + ft < t
    · unfold schedStep
      by_cases ha : a = true
      · simp [hgate, ha]
      · have ha' : a = false := by simpa using ha
        simp [hgate, ha']
    · exfalso
      apply hne
      unfold schedStep
      simp [hgate]
  · intro ft M ticks s hft hb
    exact schedRun_cursor_bound hft M ticks s hb

theorem pacing_at_most_one_frame_per_interval_witness :
    0 < 16 ∧ (∀ p ∈ [((20 : Nat), true), (25, true), (40, true)], p.1 ≤ 40) ∧
    (schedRun 16 ⟨0, 0, 0⟩ [(20, true), (25, true), (40, true)]).cursor
      ≤ 0 + (40 - 0) / 16 := by
  refine ⟨by decide, by decide, ?_⟩
  have h := pacing_at_most_one_frame_per_interval.2.2.2.2 16 40
    [(20, true), (25, true), (40, true)] ⟨0, 0, 0⟩ (by decide) (by decide)
  simpa using h

/-- C1: with the same lane count `N ≥ 1` on both sides, each worker pushing
its owned indices in ascending order and the scheduler popping from lane
`cursor % N` and advancing only on success, every reachable pipeline state
has rendered exactly frames `0, 1, ..., cursor - 1` in strict global index
order, frame `i` popped from lane `i % N`; in particular any execution with
`total_frames = 4`, `N = 2` that completes all four pops has successful pop
sequence lane 0, lane 1, lane 0, lane 1 — each lane drained exactly
twice. -/
theorem scheduler_renders_in_order (N T : Nat) (hN : 1 ≤ N) :
    (∀ s, PipeReach N T s →
      s.popLog = (List.range s.cursor).map (fun i => (i % N, i))) ∧
    (∀ s, PipeReach 2 4 s → s.cursor = 4 →
      s.popLog = [(0, 0), (1, 1), (0, 2), (1, 3)] ∧
      (s.popLog.filter (fun p => p.1 == 0)).length = 2 ∧
      (s.popLog.filter (fun p => p.1 == 1)).length = 2) := by
  constructor
  · intro s hs
    exact (pipeReach_inv hN hs).2.2.1
  · intro s hs hc4
    have h := (pipeReach_inv (show (1 : Nat) ≤ 2 from by omega) hs).2.2.1
    rw [hc4] at h
    refine ⟨?_, ?_, ?_⟩ <;> rw [h] <;> rfl

theorem scheduler_renders_in_order_witness :
    (1 : Nat) ≤ 2 ∧
    (⟨[[], []], [4, 5], 4, [(0, 0), (1, 1), (0, 2), (1, 3)]⟩
        : PipeState).popLog
      = (List.range 4).map (fun i => (i % 2, i)) := by
  have h0 : PipeReach 2 4 (initPipe 2) := PipeReach.init
  have h1 : PipeReach 2 4 ⟨[[0], []], [2, 1], 0, []⟩ :=
    h0.step (PipeStep.produce (initPipe 2) 0 (by decide) (by decide))
  have h2 : PipeReach 2 4 ⟨[[], []], [2, 1], 1, [(0, 0)]⟩ :=
    h1.step (PipeStep.pop ⟨[[0], []], [2, 1], 0, []⟩ 0 [] (by decide))
  have h3 : PipeReach 2 4 ⟨[[], [1]], [2, 3], 1, [(0, 0)]⟩ :=
    h2.step (PipeStep.produce ⟨[[], []], [2, 1], 1, [(0, 0)]⟩ 1
      (by decide) (by decide))
  have h4 : PipeReach 2 4 ⟨[[], []], [2, 3], 2, [(0, 0), (1, 1)]⟩ :=
    h3.step (PipeStep.pop ⟨[[], [1]], [2, 3], 1, [(0, 0)]⟩ 1 [] (by decide))
  have h5 : PipeReach 2 4 ⟨[[2], []], [4, 3], 2, [(0, 0), (1, 1)]⟩ :=
    h4.step (PipeStep.produce ⟨[[], []], [2, 3], 2, [(0, 0), (1, 1)]⟩ 0
      (by decide) (by decide))
  have h6 : PipeReach 2 4 ⟨[[], []], [4, 3], 3, [(0, 0), (1, 1), (0, 2)]⟩ :=
    h5.step (PipeStep.pop ⟨[[2], []], [4, 3], 2, [(0, 0), (1, 1)]⟩ 2 []
      (by decide))
  have h7 : PipeReach 2 4 ⟨[[], [3]], [4, 5], 3, [(0, 0), (1, 1), (0, 2)]⟩ :=
    h6.step (PipeStep.produce ⟨[[], []], [4, 3], 3, [(0, 0), (1, 1), (0, 2)]⟩
      1 (by decide) (by decide))
  have h8 : PipeReach 2 4
      ⟨[[], []], [4, 5], 4, [(0, 0), (1, 1), (0, 2), (1, 3)]⟩ :=
    h7.step (PipeStep.pop ⟨[[], [3]], [4, 5], 3, [(0, 0), (1, 1), (0, 2)]⟩
      3 [] (by decide))
  exact ⟨by decide, (scheduler_renders_in_order 2 4 (by decide)).1 _ h8⟩

end BadApple
